import Mathlib

/-!
Verification of the persistent transcription queue of the
`discord-transcribe` bot: queue store, wake notifier, admission policy,
worker loop, result cache and its TTL sweep.

The Lean definitions are a shallow embedding of the Python sources:
`src/client/database.py` (class `Database`), `src/cogs/transcribe.py`
(cog `Transcribe`), `src/utils/transcriber.py` (`process_queue`) and
`src/main.py` (`delete_outdated` loop).  SQLite rows become list
elements kept in insertion order (rowid order); `AUTOINCREMENT`
becomes an explicit next-id counter; the `asyncio.Event` becomes a
boolean; each `await`-free code region becomes one atomic transition.
-/

namespace DiscordTranscribe

/-- A row of the `queue` table
(`id, user_id, message_id, channel_id, locale`). -/
structure Job where
  id : Nat
  user_id : Nat
  message_id : Nat
  channel_id : Nat
  locale : String
deriving DecidableEq

/-- A row of the `transcriptions` table
(`id, message_id, channel_id, text, created_at`). -/
structure Transcription where
  id : Nat
  message_id : Nat
  channel_id : Nat
  text : String
  created_at : Int
deriving DecidableEq

/-- The persistent state of `Database`: the two tables in rowid order,
the `AUTOINCREMENT` counters, and the `task_available` event. -/
structure DBState where
  queue : List Job
  transcriptions : List Transcription
  nextQueueId : Nat
  nextTransId : Nat
  task_available : Bool
deriving DecidableEq

/-- A message attachment; only `duration_secs` is inspected by the cog. -/
structure Attachment where
  duration_secs : Int
deriving DecidableEq

/-- The fields of a `discord.Message` read by the `Transcribe` cog:
its id, its channel's id, its attachment list and its flags value. -/
structure Msg where
  message_id : Nat
  channel_id : Nat
  attachments : List Attachment
  flags : Nat
deriving DecidableEq

/-- `Database.user_in_queue`: `SELECT COUNT(*) FROM queue WHERE
user_id = ?`, cast to bool. -/
def user_in_queue (db : DBState) (u : Nat) : Bool :=
  db.queue.any (fun j => j.user_id == u)

/-- `Database.message_in_queue`: `SELECT COUNT(*) FROM queue WHERE
message_id = ?`, cast to bool. -/
def message_in_queue (db : DBState) (m : Nat) : Bool :=
  db.queue.any (fun j => j.message_id == m)

/-- `Database.add_to_queue`: `INSERT INTO queue ...` (the fresh row gets
the next autoincrement id), commit, then `task_available.set()`. -/
def add_to_queue (db : DBState) (u m c : Nat) (loc : String) : DBState :=
  { db with
    queue := db.queue ++ [⟨db.nextQueueId, u, m, c, loc⟩]
    nextQueueId := db.nextQueueId + 1
    task_available := true }

/-- `Database.get_queue_size`: `SELECT COUNT(*) FROM queue`. -/
def get_queue_size (db : DBState) : Nat :=
  db.queue.length

/-- `SELECT * FROM queue ORDER BY id ASC LIMIT 1`: the row with the
smallest id, if any. -/
def selectOldest : List Job → Option Job
  | [] => none
  | j :: rest =>
    match selectOldest rest with
    | none => some j
    | some k => if k.id < j.id then some k else some j

/-- The non-blocking core of `Database.get`: if the queue has a row,
delete the selected row (`DELETE FROM queue WHERE id = ?`) and return
it; otherwise report the queue empty (the Python loop then waits on
`task_available`). -/
def getNow (db : DBState) : Option (Job × DBState) :=
  match selectOldest db.queue with
  | some j =>
      some (j, { db with queue := db.queue.filter (fun k => k.id != j.id) })
  | none => none

/-- `Database.get_transcription`: `SELECT * FROM transcriptions WHERE
message_id = ? AND channel_id = ?`, first row if any. -/
def get_transcription (db : DBState) (m c : Nat) : Option Transcription :=
  db.transcriptions.find? (fun t => t.message_id == m && t.channel_id == c)

/-- `Database.add_transcription`: insert the row with the next
autoincrement id and `created_at := now`, returning `(lastrowid,
timestamp)` alongside the new state. -/
def add_transcription (db : DBState) (m c : Nat) (text : String) (now : Int) :
    DBState × Nat × Int :=
  ({ db with
      transcriptions := db.transcriptions ++ [⟨db.nextTransId, m, c, text, now⟩]
      nextTransId := db.nextTransId + 1 },
   db.nextTransId, now)

/-- `Database.delete_outdated`: `DELETE FROM transcriptions WHERE
created_at < now - days*86400`. -/
def delete_outdated (db : DBState) (days : Nat) (now : Int) : DBState :=
  { db with
    transcriptions :=
      db.transcriptions.filter
        (fun t => !decide (t.created_at < now - (days : Int) * 86400)) }

/-- The default `days` argument of `Database.delete_outdated`. -/
def deleteOutdatedDefaultDays : Nat := 7

/-- The interval of the `Bot.delete_outdated` task: `@tasks.loop(hours=3)`. -/
def sweepIntervalHours : Nat := 3

/-- `Transcribe.has_voice_note`: the truth value of
`message.attachments and message.flags.value >> 13`. -/
def has_voice_note (msg : Msg) : Bool :=
  !msg.attachments.isEmpty && (msg.flags >>> 13 != 0)

/-- `message.attachments[0].duration_secs` (only evaluated by the cog
after `has_voice_note` guarantees the list is non-empty). -/
def firstDuration (msg : Msg) : Int :=
  (msg.attachments.headD ⟨0⟩).duration_secs

/-- The embed returned by the `transcribe` message command: which branch
of the `if/elif` chain fired. -/
inductive Outcome where
  | noVoiceNote
  | userInQueue
  | messageInQueue
  | tooLong
  | cached (t : Transcription)
  | queuedPosition (pos : Int)
  | queuedStarting
deriving DecidableEq

/-- The worker coroutine is either between jobs or processing the job it
popped (the job is no longer in the store once popped). -/
inductive WorkerPhase where
  | idle
  | processing (j : Job)
deriving DecidableEq

/-- Process state: the database, the in-memory
`transcriber.queue_size` counter, and the worker phase. -/
structure SysState where
  db : DBState
  queue_size : Int
  worker : WorkerPhase
deriving DecidableEq

/-- `Transcribe.transcribe` (the admission chain of the message
command), with the external inputs made explicit: `isOwner` is
`client.is_owner(ctx.author)`, `author` is `ctx.author.id`, `loc` the
resolved locale.  Returns the embed outcome and the updated state. -/
def transcribe (s : SysState) (isOwner : Bool) (author : Nat) (msg : Msg)
    (loc : String) : Outcome × SysState :=
  if !has_voice_note msg then
    (.noVoiceNote, s)
  else if !isOwner && user_in_queue s.db author then
    (.userInQueue, s)
  else if message_in_queue s.db msg.message_id then
    (.messageInQueue, s)
  else if 60 < firstDuration msg then
    (.tooLong, s)
  else
    match get_transcription s.db msg.message_id msg.channel_id with
    | some d => (.cached d, s)
    | none =>
        let out : Outcome :=
          if s.db.task_available then .queuedPosition (s.queue_size + 1)
          else .queuedStarting
        (out,
         { db := add_to_queue s.db author msg.message_id msg.channel_id loc
           queue_size := s.queue_size + 1
           worker := s.worker })

/-- The reply `process_queue` sends on success: a mention of the
submitter plus the transcribed-embed data. -/
structure Reply where
  mention_user_id : Nat
  text : String
  transcription_id : Nat
  created_at : Int
deriving DecidableEq

/-- The body of `Transcriber.process_queue` after `database.get()`
returned `task`: resolve the channel (`continue` if `None`), fetch the
message (`continue` on `discord.NotFound`), otherwise transcribe, store
the result and reply.  `channelFound`/`messageFound` are the outcomes of
the external fetches and `transcribed` the opaque model output. -/
def processTask (db : DBState) (task : Job) (channelFound messageFound : Bool)
    (transcribed : String) (now : Int) : DBState × Option Reply :=
  if !channelFound then (db, none)
  else if !messageFound then (db, none)
  else
    let r := add_transcription db task.message_id task.channel_id transcribed now
    (r.1, some ⟨task.user_id, transcribed, r.2.1, r.2.2⟩)

/-- Modelled from the spec (§4.3 Admission Policy), for comparison with
`transcribe`: step 1 rejects on absent attachment, non-voice-note or
duration above 60s; step 2 is the duplicate-submitter check; step 3 the
duplicate-message check; step 4 the cache lookup; step 5 accepts. -/
def admissionSpec (s : SysState) (isOwner : Bool) (author : Nat) (msg : Msg)
    (loc : String) : Outcome × SysState :=
  if !has_voice_note msg then
    (.noVoiceNote, s)
  else if 60 < firstDuration msg then
    (.tooLong, s)
  else if !isOwner && user_in_queue s.db author then
    (.userInQueue, s)
  else if message_in_queue s.db msg.message_id then
    (.messageInQueue, s)
  else
    match get_transcription s.db msg.message_id msg.channel_id with
    | some d => (.cached d, s)
    | none =>
        let out : Outcome :=
          if s.db.task_available then .queuedPosition (s.queue_size + 1)
          else .queuedStarting
        (out,
         { db := add_to_queue s.db author msg.message_id msg.channel_id loc
           queue_size := s.queue_size + 1
           worker := s.worker })

/-- Well-formedness of the queue table: rowids strictly increase along
the table and stay below the autoincrement counter (what SQLite
`AUTOINCREMENT` maintains). -/
def QueueInv (db : DBState) : Prop :=
  db.queue.Pairwise (fun a b => a.id < b.id) ∧
  ∀ j ∈ db.queue, j.id < db.nextQueueId

/-- Repeatedly pop (`n` attempts) and collect the returned jobs. -/
def drain (db : DBState) : Nat → List Job
  | 0 => []
  | n + 1 =>
    match getNow db with
    | some (j, db') => j :: drain db' n
    | none => []

/-- The wake-notifier subsystem: the queue table, the `task_available`
event, and whether the `Database.get` loop is parked at
`task_available.wait()`. -/
structure NotifState where
  queue : List Job
  event : Bool
  waiting : Bool
deriving DecidableEq

/-- One step of the `Database.get` loop.  At the top of the loop: pop if
a row exists, else go park at `wait()`.  Parked: if the event is set,
`wait()` returns at once, `clear()` runs, and the loop re-checks the
store; if not, stay parked. -/
def workerStep (s : NotifState) : Option Job × NotifState :=
  if s.waiting then
    if s.event then (none, ⟨s.queue, false, false⟩)
    else (none, s)
  else
    match selectOldest s.queue with
    | some j => (some j, ⟨s.queue.filter (fun k => k.id != j.id), s.event, false⟩)
    | none => (none, ⟨s.queue, s.event, true⟩)

/-- Run the `Database.get` loop for at most `fuel` steps, returning the
popped job and the state when the loop returns. -/
def workerRun (s : NotifState) : Nat → Option (Job × NotifState)
  | 0 => none
  | fuel + 1 =>
    match workerStep s with
    | (some j, s') => some (j, s')
    | (none, s') => if s' = s then none else workerRun s' fuel

/-- `Database.add_to_queue` as seen by the notifier: append the row,
commit, then `task_available.set()`. -/
def producerStep (s : NotifState) (j : Job) : NotifState :=
  ⟨s.queue ++ [j], true, s.waiting⟩

/-- No lost wakeup: whenever the `get` loop is parked with the event
clear, the store really is empty (every committed enqueue has set the
event, and only the waker clears it). -/
def NotifInv (s : NotifState) : Prop :=
  s.waiting = true → s.event = false → s.queue = []

/-- Progress of one in-flight invocation of the `transcribe` message
command, split at the points where the coroutine suspends: each check
opens its own database connection (`await`), and `add_to_queue`
suspends again between its commit and the caller resuming, so the
counter increment at `transcribe.py:91` runs strictly later. -/
inductive AdmPhase where
  | checkUser
  | checkMsg
  | checkCache
  | insertJob (out : Outcome)
  | incrCount (out : Outcome)
  | finished (out : Outcome)
deriving DecidableEq

/-- One in-flight admission: the submission's fixed data (`isOwner` is
the `client.is_owner` result, fixed configuration) plus its phase. -/
structure Adm where
  author : Nat
  isOwner : Bool
  msg : Msg
  loc : String
  phase : AdmPhase
deriving DecidableEq

/-- An admission that still has steps to take. -/
def admActive (a : Adm) : Bool :=
  match a.phase with
  | .finished _ => false
  | _ => true

/-- The admission has passed the duplicate-submitter check (phases
strictly after `checkUser` and before its insert is committed). -/
def passedUser (a : Adm) : Bool :=
  match a.phase with
  | .checkMsg | .checkCache | .insertJob _ => true
  | _ => false

/-- The admission has passed the duplicate-message check and not yet
committed its insert. -/
def passedMsg (a : Adm) : Bool :=
  match a.phase with
  | .checkCache | .insertJob _ => true
  | _ => false

/-- The admission has committed its insert but not yet run
`queue_size += 1`. -/
def isIncr (a : Adm) : Bool :=
  match a.phase with
  | .incrCount _ => true
  | _ => false

/-- Admissions that committed their insert but have not yet run
`queue_size += 1`. -/
def pendingIncr (adms : List Adm) : Nat :=
  adms.countP isIncr

/-- One resume of an in-flight admission against the shared state,
mirroring the `elif` chain of `Transcribe.transcribe`: each phase
performs exactly the reads/writes of one `await`-free region and
returns the updated admission, database and counter. -/
def admStep (db : DBState) (qs : Int) (a : Adm) : Adm × DBState × Int :=
  match a.phase with
  | .checkUser =>
    if !has_voice_note a.msg then ({ a with phase := .finished .noVoiceNote }, db, qs)
    else if !a.isOwner && user_in_queue db a.author then
      ({ a with phase := .finished .userInQueue }, db, qs)
    else ({ a with phase := .checkMsg }, db, qs)
  | .checkMsg =>
    if message_in_queue db a.msg.message_id then
      ({ a with phase := .finished .messageInQueue }, db, qs)
    else if 60 < firstDuration a.msg then ({ a with phase := .finished .tooLong }, db, qs)
    else ({ a with phase := .checkCache }, db, qs)
  | .checkCache =>
    match get_transcription db a.msg.message_id a.msg.channel_id with
    | some d => ({ a with phase := .finished (.cached d) }, db, qs)
    | none =>
        let out : Outcome :=
          if db.task_available then .queuedPosition (qs + 1) else .queuedStarting
        ({ a with phase := .insertJob out }, db, qs)
  | .insertJob out =>
    ({ a with phase := .incrCount out },
     add_to_queue db a.author a.msg.message_id a.msg.channel_id a.loc, qs)
  | .incrCount out => ({ a with phase := .finished out }, db, qs + 1)
  | .finished _ => (a, db, qs)

/-- The worker between `database.get`'s pop commit and the
`queue_size -= 1` at `transcriber.py:48` (the connection close inside
`get` suspends between them), then processing, then idle. -/
inductive WorkerState where
  | idle
  | decrementing (j : Job)
  | processing (j : Job)
deriving DecidableEq

/-- The job the worker has popped and not yet finished with. -/
def inFlight : WorkerState → Option Job
  | .idle => none
  | .decrementing j => some j
  | .processing j => some j

/-- 1 when the worker has popped a row but not yet decremented the
counter. -/
def decrFlag : WorkerState → Nat
  | .decrementing _ => 1
  | _ => 0

/-- Whole-process state: the database, the in-memory
`transcriber.queue_size` counter, the worker, and every in-flight
admission (indexed in spawn order). -/
structure ProcState where
  db : DBState
  queue_size : Int
  worker : WorkerState
  adms : List Adm
deriving DecidableEq

/-- The atomic transitions of the process; each is one `await`-free
region of the Python code.  `spawn` is a new `transcribe` invocation
reaching its first suspension; `adm i` resumes in-flight admission `i`
for one region; `dequeuePop`/`dequeueDecr` split `database.get`'s pop
commit from the counter decrement; `wait` is the empty-queue branch of
`get` (wait then clear); `abandon`/`complete` are the worker body's two
endings; `sweep` one run of the `delete_outdated` task. -/
inductive Act where
  | spawn (author : Nat) (msg : Msg) (loc : String)
  | adm (i : Nat)
  | dequeuePop
  | dequeueDecr
  | wait
  | abandon
  | complete (text : String) (now : Int)
  | sweep (days : Nat) (now : Int)

/-- One atomic transition.  `owner` is the fixed owner predicate of the
bot configuration.  A transition whose guard does not hold leaves the
state unchanged (it is not enabled). -/
def step (owner : Nat → Bool) (s : ProcState) : Act → ProcState
  | .spawn a msg loc =>
    { s with adms := s.adms ++ [⟨a, owner a, msg, loc, .checkUser⟩] }
  | .adm i =>
    match s.adms.get? i with
    | some a =>
        if admActive a then
          let r := admStep s.db s.queue_size a
          { db := r.2.1, queue_size := r.2.2, worker := s.worker,
            adms := s.adms.set i r.1 }
        else s
    | none => s
  | .dequeuePop =>
    match s.worker, getNow s.db with
    | .idle, some (j, db') => { s with db := db', worker := .decrementing j }
    | _, _ => s
  | .dequeueDecr =>
    match s.worker with
    | .decrementing j => { s with queue_size := s.queue_size - 1, worker := .processing j }
    | _ => s
  | .wait =>
    if s.worker = .idle ∧ s.db.queue = [] ∧ s.db.task_available = true then
      { s with db := { s.db with task_available := false } }
    else s
  | .abandon =>
    match s.worker with
    | .processing _ => { s with worker := .idle }
    | _ => s
  | .complete text now =>
    match s.worker with
    | .processing j =>
        { s with db := (add_transcription s.db j.message_id j.channel_id text now).1,
                 worker := .idle }
    | _ => s
  | .sweep days now => { s with db := delete_outdated s.db days now }

/-- The state after `Bot.on_start` on a fresh database: both tables
empty, autoincrement counters at 1, event unset, `queue_size`
rehydrated from `get_queue_size` (= 0), worker between jobs, no
in-flight admission. -/
def initState : ProcState :=
  ⟨⟨[], [], 1, 1, false⟩, 0, .idle, []⟩

/-- The state reached from a fresh start by a list of transitions. -/
def run (owner : Nat → Bool) (acts : List Act) : ProcState :=
  acts.foldl (step owner) initState

/-- A `spawn` overlaps when some earlier admission is still unfinished:
traces without such spawns run the admission chains serially. -/
def overlapping (s : ProcState) : Act → Bool
  | .spawn _ _ _ => s.adms.any admActive
  | _ => false

/-- An admission step races the worker when it resumes an unfinished
admission for the very message whose popped job is still in flight. -/
def interferes (s : ProcState) : Act → Bool
  | .adm i =>
    match s.adms.get? i, inFlight s.worker with
    | some a, some j => admActive a && (a.msg.message_id == j.message_id)
    | _, _ => false
  | _ => false

/-- A trace none of whose acts is `bad` at its pre-state. -/
def okTrace (owner : Nat → Bool) (bad : ProcState → Act → Bool) :
    ProcState → List Act → Bool
  | _, [] => true
  | s, a :: rest => !bad s a && okTrace owner bad (step owner s a) rest

/-- Unconditional invariant of every reachable process state: queue
rowids strictly increase and stay below the autoincrement counter, and
the counter ledger balances — `queue_size` plus the inserts not yet
counted equals the store size plus the pops not yet counted. -/
def BaseInv (s : ProcState) : Prop :=
  s.db.queue.Pairwise (fun a b => a.id < b.id) ∧
  (∀ j ∈ s.db.queue, j.id < s.db.nextQueueId) ∧
  s.queue_size + (pendingIncr s.adms : Int) =
    (s.db.queue.length : Int) + (decrFlag s.worker : Int)

/-- Invariant carried by serialized traces: at most one queued job per
non-owner submitter and per message; every admission records the real
owner bit; and the (unique) active admission's passed checks pin the
queue — no job with its submitter (non-owner) once past `checkUser`,
none with its message once past `checkMsg`. -/
def SerialInv (owner : Nat → Bool) (s : ProcState) : Prop :=
  (∀ u, owner u = false → s.db.queue.countP (fun j => j.user_id == u) ≤ 1) ∧
  (∀ m, s.db.queue.countP (fun j => j.message_id == m) ≤ 1) ∧
  (∀ a ∈ s.adms, a.isOwner = owner a.author) ∧
  (∀ i a, s.adms.get? i = some a → admActive a = true →
      ((passedUser a = true → a.isOwner = false →
          s.db.queue.countP (fun j => j.user_id == a.author) = 0) ∧
       (passedMsg a = true →
          s.db.queue.countP (fun j => j.message_id == a.msg.message_id) = 0)) ∧
      (∀ k b, s.adms.get? k = some b → k ≠ i → admActive b = false))

/-- Invariant carried by serialized, worker-race-free traces: at most
one stored result per `(message_id, channel_id)` pair, no queued job
whose pair already has a result, the in-flight job's pair has no
result and no second queued job, and an admission past its cache check
targets a pair with no result and a message distinct from the
in-flight job's. -/
def CacheInvF (s : ProcState) : Prop :=
  (∀ m c : Nat, s.db.transcriptions.countP
      (fun t => t.message_id == m && t.channel_id == c) ≤ 1) ∧
  (∀ j ∈ s.db.queue, ∀ t ∈ s.db.transcriptions,
      ¬(t.message_id = j.message_id ∧ t.channel_id = j.channel_id)) ∧
  (∀ j : Job, inFlight s.worker = some j →
      (∀ t ∈ s.db.transcriptions,
          ¬(t.message_id = j.message_id ∧ t.channel_id = j.channel_id)) ∧
      (∀ k ∈ s.db.queue, k.message_id ≠ j.message_id)) ∧
  (∀ a ∈ s.adms, ∀ out : Outcome, a.phase = .insertJob out →
      (∀ t ∈ s.db.transcriptions,
          ¬(t.message_id = a.msg.message_id ∧ t.channel_id = a.msg.channel_id)) ∧
      (∀ j : Job, inFlight s.worker = some j → a.msg.message_id ≠ j.message_id))

instance (db : DBState) : Decidable (QueueInv db) := by
  unfold QueueInv; infer_instance

instance (s : NotifState) : Decidable (NotifInv s) := by
  unfold NotifInv; infer_instance

/-- C10: `has_voice_note` holds exactly when the message has at least
one attachment and its flags value is at least `2^13` (its shift right
by 13 is nonzero); in particular a message whose only set flag bit is
bit 14 — bit 13, the voice-message bit itself, clear — passes. -/
theorem claim_C10 :
    (∀ msg : Msg, has_voice_note msg = true ↔ msg.attachments ≠ [] ∧ 2 ^ 13 ≤ msg.flags) ∧
    has_voice_note ⟨0, 0, [⟨5⟩], 2 ^ 14⟩ = true ∧ Nat.testBit (2 ^ 14) 13 = false := by
  refine ⟨fun msg => ?_, by decide, by decide⟩
  simp only [has_voice_note, Bool.and_eq_true, Bool.not_eq_true', List.isEmpty_eq_false,
    bne_iff_ne, ne_eq, Nat.shiftRight_eq_div_pow]
  constructor
  · rintro ⟨h1, h2⟩
    exact ⟨h1, by omega⟩
  · rintro ⟨h1, h2⟩
    exact ⟨h1, by omega⟩

/-- C8: the TTL sweep retains a result exactly when its `created_at` is
not below `now - days*86400` (so it deletes exactly the others,
independent of any access pattern); the default retention is 7 days,
the sweep interval 3 hours, and on results created at `now - 8` days
and `now - 1` day with 7-day retention it deletes exactly the first. -/
theorem claim_C8 :
    (∀ (db : DBState) (days : Nat) (now : Int) (t : Transcription),
        t ∈ (delete_outdated db days now).transcriptions ↔
          t ∈ db.transcriptions ∧ ¬ (t.created_at < now - (days : Int) * 86400)) ∧
    deleteOutdatedDefaultDays = 7 ∧ sweepIntervalHours = 3 ∧
    (delete_outdated ⟨[], [⟨1, 100, 9, "old", 308800⟩, ⟨2, 101, 9, "new", 913600⟩], 1, 3, false⟩
        7 1000000).transcriptions = [⟨2, 101, 9, "new", 913600⟩] := by
  refine ⟨fun db days now t => ?_, rfl, rfl, by decide⟩
  simp [delete_outdated, List.mem_filter]

/-- C9: when the channel cannot be resolved or the message fetch hits
`NotFound`, the worker body abandons the popped job silently: the
database is returned unchanged (no transcription row written, the job
not re-enqueued — it stays removed, there is no retry) and no reply is
produced; the loop then just continues. -/
theorem claim_C9 (db : DBState) (task : Job) (channelFound messageFound : Bool)
    (transcribed : String) (now : Int)
    (h : channelFound = false ∨ messageFound = false) :
    processTask db task channelFound messageFound transcribed now = (db, none) := by
  rcases h with h | h
  · subst h; simp [processTask]
  · subst h; cases channelFound <;> simp [processTask]

/-- Witness for C9: a concrete abandoned job (channel unresolved). -/
theorem claim_C9_witness :
    processTask ⟨[], [], 1, 1, false⟩ ⟨1, 10, 100, 9, "en"⟩ false true "x" 0
      = (⟨[], [], 1, 1, false⟩, none) :=
  claim_C9 _ _ _ _ _ _ (Or.inl rfl)

/-- C4: when validation and both duplicate checks pass and the result
cache holds a transcription for the message/channel pair, the command
returns that cached row (its text, id and created_at travel inside it)
and the whole state — queue included — is unchanged: no enqueue. -/
theorem claim_C4 (s : SysState) (isOwner : Bool) (author : Nat) (msg : Msg) (loc : String)
    (d : Transcription)
    (hv : has_voice_note msg = true)
    (hu : isOwner = true ∨ user_in_queue s.db author = false)
    (hm : message_in_queue s.db msg.message_id = false)
    (hd : ¬ 60 < firstDuration msg)
    (hc : get_transcription s.db msg.message_id msg.channel_id = some d) :
    transcribe s isOwner author msg loc = (.cached d, s) := by
  unfold transcribe
  rcases hu with hu | hu <;>
    simp [hv, hu, hm, hc, hd]

/-- Witness for C4: a concrete cache hit returning the stored row. -/
theorem claim_C4_witness :
    transcribe ⟨⟨[], [⟨1, 100, 9, "hello", 500⟩], 1, 2, false⟩, 0, .idle⟩ false 1
        ⟨100, 9, [⟨30⟩], 8192⟩ "en-US"
      = (.cached ⟨1, 100, 9, "hello", 500⟩,
         ⟨⟨[], [⟨1, 100, 9, "hello", 500⟩], 1, 2, false⟩, 0, .idle⟩) :=
  claim_C4 _ _ _ _ _ _ (by decide) (Or.inr (by decide)) (by decide) (by decide) (by decide)

/-- Counterexample to C2: with user 5 already holding a queued job, a
75-second voice note submitted by user 5 is rejected by the code as
`userInQueue`, while an admission that ran all caller-level validation
(including the 60s ceiling) as step 1 — `admissionSpec`, the spec's
order — rejects it as `tooLong`: the duration check is not evaluated
before the duplicate-submitter check. -/
theorem claim_C2_counterexample :
    (transcribe ⟨⟨[⟨1, 5, 1, 9, "en-US"⟩], [], 2, 1, true⟩, 1, .idle⟩ false 5
        ⟨2, 9, [⟨75⟩], 8192⟩ "en-US").1 = .userInQueue ∧
    (admissionSpec ⟨⟨[⟨1, 5, 1, 9, "en-US"⟩], [], 2, 1, true⟩, 1, .idle⟩ false 5
        ⟨2, 9, [⟨75⟩], 8192⟩ "en-US").1 = .tooLong ∧
    Outcome.userInQueue ≠ Outcome.tooLong := by
  refine ⟨by decide, by decide, by decide⟩

/-- C2 (amended): the admission chain short-circuits in the code's
order — voice-note validation, then duplicate-submitter (skipped for
the owner), then duplicate-message, then the 60s duration ceiling,
then the cache lookup; each outcome is returned exactly under the
conjunction of its guard and the failure of every earlier guard. -/
theorem claim_C2 (s : SysState) (isOwner : Bool) (author : Nat) (msg : Msg) (loc : String) :
    ((transcribe s isOwner author msg loc).1 = .noVoiceNote ↔ has_voice_note msg = false) ∧
    ((transcribe s isOwner author msg loc).1 = .userInQueue ↔
      has_voice_note msg = true ∧ isOwner = false ∧ user_in_queue s.db author = true) ∧
    ((transcribe s isOwner author msg loc).1 = .messageInQueue ↔
      has_voice_note msg = true ∧ (isOwner = true ∨ user_in_queue s.db author = false) ∧
      message_in_queue s.db msg.message_id = true) ∧
    ((transcribe s isOwner author msg loc).1 = .tooLong ↔
      has_voice_note msg = true ∧ (isOwner = true ∨ user_in_queue s.db author = false) ∧
      message_in_queue s.db msg.message_id = false ∧ 60 < firstDuration msg) ∧
    (∀ d, (transcribe s isOwner author msg loc).1 = .cached d ↔
      has_voice_note msg = true ∧ (isOwner = true ∨ user_in_queue s.db author = false) ∧
      message_in_queue s.db msg.message_id = false ∧ ¬ 60 < firstDuration msg ∧
      get_transcription s.db msg.message_id msg.channel_id = some d) := by
  cases hv : has_voice_note msg <;>
    cases ho : isOwner <;>
      cases hu : user_in_queue s.db author <;>
        cases hm : message_in_queue s.db msg.message_id <;>
          by_cases hd : 60 < firstDuration msg <;>
            cases hc : get_transcription s.db msg.message_id msg.channel_id <;>
              cases hta : s.db.task_available <;>
                simp [transcribe, hv, ho, hu, hm, hd, hc, hta]

theorem selectOldest_sorted (l : List Job)
    (h : l.Pairwise (fun a b => a.id < b.id)) : selectOldest l = l.head? := by
  induction l with
  | nil => rfl
  | cons j rest ih =>
    have hrest := ih (h.of_cons)
    cases rest with
    | nil => rfl
    | cons k t =>
      have hjk : j.id < k.id := (List.rel_of_pairwise_cons h) (List.mem_cons_self k t)
      have hone : selectOldest (j :: k :: t) =
          match selectOldest (k :: t) with
          | none => some j
          | some m => if m.id < j.id then some m else some j := rfl
      rw [hone, hrest]
      simp [Nat.not_lt.mpr (Nat.le_of_lt hjk)]

theorem filter_head_sorted (j : Job) (rest : List Job)
    (h : (j :: rest).Pairwise (fun a b => a.id < b.id)) :
    (j :: rest).filter (fun k => k.id != j.id) = rest := by
  rw [List.filter_cons]
  simp only [bne_self_eq_false, Bool.false_eq_true, if_neg]
  refine List.filter_eq_self.mpr fun k hk => ?_
  have : j.id < k.id := (List.rel_of_pairwise_cons h) hk
  simp [bne_iff_ne]
  omega

theorem getNow_cons (db : DBState) (j : Job) (rest : List Job)
    (hq : db.queue = j :: rest) (h : QueueInv db) :
    getNow db = some (j, { db with queue := rest }) := by
  obtain ⟨hp, _⟩ := h
  rw [hq] at hp
  unfold getNow
  rw [hq, selectOldest_sorted _ hp]
  simp [filter_head_sorted j rest hp]

theorem QueueInv_tail (db : DBState) (j : Job) (rest : List Job)
    (hq : db.queue = j :: rest) (h : QueueInv db) :
    QueueInv { db with queue := rest } := by
  obtain ⟨hp, hb⟩ := h
  rw [hq] at hp hb
  exact ⟨hp.of_cons, fun k hk => hb k (List.mem_cons_of_mem j hk)⟩

theorem drain_eq (n : Nat) : ∀ db : DBState, QueueInv db → db.queue.length = n →
    drain db n = db.queue := by
  induction n with
  | zero =>
    intro db _ hl
    rw [List.length_eq_zero] at hl
    simp [drain, hl]
  | succ n ih =>
    intro db h hl
    cases hq : db.queue with
    | nil => rw [hq] at hl; simp at hl
    | cons j rest =>
      rw [hq] at hl
      simp only [List.length_cons, Nat.succ.injEq] at hl
      have hstep : drain db (n + 1) = j :: drain { db with queue := rest } n := by
        rw [drain, getNow_cons db j rest hq h]
      rw [hstep, ih { db with queue := rest } (QueueInv_tail db j rest hq h) hl]

/-- C1: under the queue-store invariant (SQLite rowids strictly
increase along the table), a pop returns exactly the row with the
smallest id and removes exactly it (the rest of the table is
untouched); an empty pop means an empty table; an enqueue appends one
row whose fresh id is strictly greater than every id already present,
preserving the invariant; and draining the queue returns the rows in
exactly their insertion (id) order — FIFO. -/
theorem claim_C1 (db : DBState) (h : QueueInv db) :
    (∀ j db', getNow db = some (j, db') →
        j ∈ db.queue ∧ (∀ k ∈ db.queue, j.id ≤ k.id) ∧
        db.queue = j :: db'.queue ∧ QueueInv db') ∧
    (getNow db = none ↔ db.queue = []) ∧
    (∀ u m c loc,
        (add_to_queue db u m c loc).queue = db.queue ++ [⟨db.nextQueueId, u, m, c, loc⟩] ∧
        (∀ k ∈ db.queue, k.id < (⟨db.nextQueueId, u, m, c, loc⟩ : Job).id) ∧
        QueueInv (add_to_queue db u m c loc)) ∧
    drain db db.queue.length = db.queue := by
  obtain ⟨hp, hb⟩ := h
  refine ⟨?_, ?_, ?_, drain_eq _ db ⟨hp, hb⟩ rfl⟩
  · intro j db' hget
    cases hq : db.queue with
    | nil =>
      rw [getNow, hq] at hget
      simp [selectOldest] at hget
    | cons j0 rest =>
      rw [getNow_cons db j0 rest hq ⟨hp, hb⟩] at hget
      obtain ⟨rfl, rfl⟩ : j0 = j ∧ ({ db with queue := rest } : DBState) = db' := by
        constructor
        · exact congrArg (fun x => (Option.getD x (j0, db)).1) hget
        · exact congrArg (fun x => (Option.getD x (j0, db)).2) hget
      have hp' : List.Pairwise (fun a b => a.id < b.id) (j0 :: rest) := by
        rw [hq] at hp; exact hp
      refine ⟨List.mem_cons_self _ _, ?_, rfl, QueueInv_tail db j0 rest hq ⟨hp, hb⟩⟩
      intro k hk
      rcases List.mem_cons.mp hk with rfl | hk
      · exact Nat.le_refl _
      · exact Nat.le_of_lt ((List.rel_of_pairwise_cons hp') hk)
  · constructor
    · intro hget
      cases hq : db.queue with
      | nil => rfl
      | cons j0 rest =>
        rw [getNow_cons db j0 rest hq ⟨hp, hb⟩] at hget
        cases hget
    · intro hq
      rw [getNow, hq]
      rfl
  · intro u m c loc
    refine ⟨rfl, fun k hk => hb k hk, ?_, ?_⟩
    · rw [add_to_queue]
      simp only
      refine List.pairwise_append.mpr ⟨hp, List.pairwise_singleton _ _, ?_⟩
      intro a ha b hbm
      rcases List.mem_singleton.mp hbm with rfl
      exact hb a ha
    · intro j hj
      rw [add_to_queue] at hj
      simp only at hj
      rcases List.mem_append.mp hj with hj | hj
      · exact Nat.lt_succ_of_lt (hb j hj)
      · rcases List.mem_singleton.mp hj with rfl
        exact Nat.lt_succ_self _

/-- Witness for C1: a concrete two-row queue satisfying the invariant
drains in insertion order. -/
theorem claim_C1_witness :
    drain ⟨[⟨1, 10, 100, 9, "en"⟩, ⟨2, 11, 101, 9, "en"⟩], [], 3, 1, true⟩ 2
      = [⟨1, 10, 100, 9, "en"⟩, ⟨2, 11, 101, 9, "en"⟩] :=
  (claim_C1 ⟨[⟨1, 10, 100, 9, "en"⟩, ⟨2, 11, 101, 9, "en"⟩], [], 3, 1, true⟩
    (by decide)).2.2.2

theorem selectOldest_eq_none (l : List Job) : selectOldest l = none ↔ l = [] := by
  constructor
  · intro h
    cases l with
    | nil => rfl
    | cons j rest =>
      rw [selectOldest] at h
      cases hx : selectOldest rest with
      | none => rw [hx] at h; cases h
      | some k =>
        rw [hx] at h
        dsimp only at h
        split at h <;> cases h
  · rintro rfl; rfl

theorem selectOldest_mem (l : List Job) (j : Job) (h : selectOldest l = some j) :
    j ∈ l := by
  induction l with
  | nil => cases h
  | cons j0 rest ih =>
    rw [selectOldest] at h
    cases hr : selectOldest rest with
    | none => rw [hr] at h; cases h; exact List.mem_cons_self _ _
    | some k =>
      rw [hr] at h
      dsimp only at h
      by_cases hk : k.id < j0.id
      · rw [if_pos hk] at h
        cases h
        exact List.mem_cons_of_mem _ (ih hr)
      · rw [if_neg hk] at h
        cases h
        exact List.mem_cons_self _ _

theorem selectOldest_min (l : List Job) :
    ∀ j : Job, selectOldest l = some j → ∀ k ∈ l, j.id ≤ k.id := by
  induction l with
  | nil => intro j h; cases h
  | cons j0 rest ih =>
    intro j h
    rw [selectOldest] at h
    cases hr : selectOldest rest with
    | none =>
      rw [hr] at h
      cases h
      have : rest = [] := (selectOldest_eq_none rest).mp hr
      subst this
      intro k hk
      rcases List.mem_singleton.mp hk with rfl
      exact Nat.le_refl _
    | some m =>
      rw [hr] at h
      dsimp only at h
      by_cases hm : m.id < j0.id
      · rw [if_pos hm] at h
        cases h
        intro k hk
        rcases List.mem_cons.mp hk with rfl | hk
        · exact Nat.le_of_lt hm
        · exact ih j hr k hk
      · rw [if_neg hm] at h
        cases h
        intro k hk
        rcases List.mem_cons.mp hk with rfl | hk
        · exact Nat.le_refl _
        · exact Nat.le_trans (Nat.not_lt.mp hm) (ih m hr k hk)

theorem workerRun_empty (n : Nat) : ∀ e w : Bool, workerRun ⟨[], e, w⟩ n = none := by
  induction n with
  | zero => intro e w; rfl
  | succ n ih =>
    intro e w
    rw [workerRun]
    cases w
    · have hstep : workerStep ⟨[], e, false⟩ = (none, ⟨[], e, true⟩) := rfl
      rw [hstep]
      dsimp only
      rw [if_neg (by simp)]
      exact ih e true
    · cases e
      · have hstep : workerStep ⟨[], false, true⟩ = (none, ⟨[], false, true⟩) := rfl
        rw [hstep]
        dsimp only
        rw [if_pos rfl]
      · have hstep : workerStep ⟨[], true, true⟩ = (none, ⟨[], false, false⟩) := rfl
        rw [hstep]
        dsimp only
        rw [if_neg (by simp)]
        exact ih false false

theorem workerRun_some_min (n : Nat) : ∀ (s : NotifState) (j : Job) (s' : NotifState),
    workerRun s n = some (j, s') → j ∈ s.queue ∧ ∀ k ∈ s.queue, j.id ≤ k.id := by
  induction n with
  | zero => intro s j s' h; cases h
  | succ n ih =>
    rintro ⟨q, e, w⟩ j s' h
    rw [workerRun] at h
    cases w
    · cases hsel : selectOldest q with
      | some j0 =>
        have hstep : workerStep ⟨q, e, false⟩ =
            (some j0, ⟨q.filter (fun k => k.id != j0.id), e, false⟩) := by
          simp [workerStep, hsel]
        rw [hstep] at h
        dsimp only at h
        simp only [Option.some.injEq, Prod.mk.injEq] at h
        obtain ⟨rfl, rfl⟩ := h
        exact ⟨selectOldest_mem _ _ hsel, selectOldest_min _ _ hsel⟩
      | none =>
        have hstep : workerStep ⟨q, e, false⟩ = (none, ⟨q, e, true⟩) := by
          simp [workerStep, hsel]
        rw [hstep] at h
        dsimp only at h
        rw [if_neg (by simp)] at h
        exact ih ⟨q, e, true⟩ j s' h
    · cases e
      · have hstep : workerStep ⟨q, false, true⟩ = (none, ⟨q, false, true⟩) := rfl
        rw [hstep] at h
        dsimp only at h
        rw [if_pos rfl] at h
        cases h
      · have hstep : workerStep ⟨q, true, true⟩ = (none, ⟨q, false, false⟩) := rfl
        rw [hstep] at h
        dsimp only at h
        rw [if_neg (by simp)] at h
        exact ih ⟨q, false, false⟩ j s' h

theorem workerStep_NotifInv (s : NotifState) (h : NotifInv s) : NotifInv (workerStep s).2 := by
  rcases s with ⟨q, e, w⟩
  cases w
  · cases hsel : selectOldest q with
    | some j =>
      have hstep : workerStep ⟨q, e, false⟩ =
          (some j, ⟨q.filter (fun k => k.id != j.id), e, false⟩) := by
        simp [workerStep, hsel]
      rw [hstep]
      intro h1 _
      cases h1
    | none =>
      have hstep : workerStep ⟨q, e, false⟩ = (none, ⟨q, e, true⟩) := by
        simp [workerStep, hsel]
      rw [hstep]
      intro _ _
      exact (selectOldest_eq_none q).mp hsel
  · cases e
    · exact h
    · intro h1 _
      cases h1

theorem producerStep_spec (s : NotifState) (j : Job) :
    NotifInv (producerStep s j) ∧ (producerStep s j).queue = s.queue ++ [j] ∧
    (producerStep s j).event = true := by
  refine ⟨?_, rfl, rfl⟩
  intro _ h2
  cases h2

theorem workerRun_progress (s : NotifState) (hInv : NotifInv s) (hne : s.queue ≠ []) :
    ∃ j s', workerRun s 3 = some (j, s') ∧ j ∈ s.queue ∧ ∀ k ∈ s.queue, j.id ≤ k.id := by
  rcases s with ⟨q, e, w⟩
  obtain ⟨j0, hsel⟩ : ∃ j0, selectOldest q = some j0 := by
    cases hx : selectOldest q with
    | none => exact absurd ((selectOldest_eq_none q).mp hx) hne
    | some j0 => exact ⟨j0, rfl⟩
  cases w
  · refine ⟨j0, ⟨q.filter (fun k => k.id != j0.id), e, false⟩, ?_,
      selectOldest_mem _ _ hsel, selectOldest_min _ j0 hsel⟩
    rw [workerRun]
    have hstep : workerStep ⟨q, e, false⟩ =
        (some j0, ⟨q.filter (fun k => k.id != j0.id), e, false⟩) := by
      simp [workerStep, hsel]
    rw [hstep]
  · have he : e = true := by
      cases e
      · exact absurd (hInv rfl rfl) hne
      · rfl
    subst he
    refine ⟨j0, ⟨q.filter (fun k => k.id != j0.id), false, false⟩, ?_,
      selectOldest_mem _ _ hsel, selectOldest_min _ j0 hsel⟩
    rw [workerRun]
    have h1 : workerStep ⟨q, true, true⟩ = (none, ⟨q, false, false⟩) := rfl
    rw [h1]
    dsimp only
    rw [if_neg (by simp)]
    rw [workerRun]
    have h2 : workerStep ⟨q, false, false⟩ =
        (some j0, ⟨q.filter (fun k => k.id != j0.id), false, false⟩) := by
      simp [workerStep, hsel]
    rw [h2]

/-- C6: the `Database.get` loop (a) never returns anything from an
empty store — with the queue empty it parks and loops forever rather
than returning an empty result or erroring; (b) any job it does return
was a stored row with the smallest id; (c) its steps preserve the
no-lost-wakeup invariant (parked with the event clear implies the
store is empty); (d) an enqueue appends its committed row and sets the
event after the commit, unconditionally re-establishing the invariant;
(e) hence from any invariant state with a committed row — in
particular right after a signal racing the wait — the loop returns the
smallest-id row within three steps: the wakeup is never lost. -/
theorem claim_C6 :
    (∀ (e w : Bool) (n : Nat), workerRun ⟨[], e, w⟩ n = none) ∧
    (∀ (s : NotifState) (n : Nat) (j : Job) (s' : NotifState),
        workerRun s n = some (j, s') → j ∈ s.queue ∧ ∀ k ∈ s.queue, j.id ≤ k.id) ∧
    (∀ s : NotifState, NotifInv s → NotifInv (workerStep s).2) ∧
    (∀ (s : NotifState) (j : Job),
        NotifInv (producerStep s j) ∧ (producerStep s j).queue = s.queue ++ [j] ∧
        (producerStep s j).event = true) ∧
    (∀ s : NotifState, NotifInv s → s.queue ≠ [] →
        ∃ j s', workerRun s 3 = some (j, s') ∧ j ∈ s.queue ∧ ∀ k ∈ s.queue, j.id ≤ k.id) :=
  ⟨fun e w n => workerRun_empty n e w,
   fun s n => workerRun_some_min n s,
   workerStep_NotifInv,
   producerStep_spec,
   workerRun_progress⟩

theorem countP_set_of_get? {α : Type} (p : α → Bool) (l : List α) :
    ∀ (i : Nat) (x : α) {a : α}, l.get? i = some a →
      (l.set i x).countP p + (if p a then 1 else 0) =
        l.countP p + (if p x then 1 else 0) := by
  induction l with
  | nil => intro i x a h; cases h
  | cons hd tl ih =>
    intro i x a h
    cases i with
    | zero =>
      cases h
      simp only [List.set, List.countP_cons]
      omega
    | succ n =>
      simp only [List.get?] at h
      simp only [List.set, List.countP_cons]
      have := ih n x h
      omega

theorem countP_set_same {α : Type} (p : α → Bool) (l : List α) (i : Nat) (x : α) {a : α}
    (h : l.get? i = some a) (hx : p x = p a) :
    (l.set i x).countP p = l.countP p := by
  have := countP_set_of_get? p l i x h
  rw [hx] at this
  omega

theorem countP_set_incr {α : Type} (p : α → Bool) (l : List α) (i : Nat) (x : α) {a : α}
    (h : l.get? i = some a) (hx : p x = true) (ha : p a = false) :
    (l.set i x).countP p = l.countP p + 1 := by
  have := countP_set_of_get? p l i x h
  rw [hx, ha] at this
  simpa using this

theorem countP_set_decr {α : Type} (p : α → Bool) (l : List α) (i : Nat) (x : α) {a : α}
    (h : l.get? i = some a) (hx : p x = false) (ha : p a = true) :
    (l.set i x).countP p + 1 = l.countP p := by
  have := countP_set_of_get? p l i x h
  rw [hx, ha] at this
  simpa using this

theorem countP_append_singleton {α : Type} (p : α → Bool) (l : List α) (x : α) :
    (l ++ [x]).countP p = l.countP p + (if p x then 1 else 0) := by
  rw [List.countP_append]
  simp [List.countP_cons]

theorem countP_zero_of_any_false {α : Type} (p : α → Bool) (l : List α)
    (h : l.any p = false) : l.countP p = 0 := by
  rw [List.countP_eq_zero]
  intro a ha
  have := List.any_eq_false.mp h a ha
  simpa using this

theorem foldl_proc_inv {owner : Nat → Bool} (P : ProcState → Prop)
    (hstep : ∀ s a, P s → P (step owner s a)) :
    ∀ (acts : List Act) (s : ProcState), P s → P (acts.foldl (step owner) s) := by
  intro acts
  induction acts with
  | nil => intro s h; exact h
  | cons a rest ih => intro s h; exact ih _ (hstep s a h)

theorem okTrace_foldl {owner : Nat → Bool} {bad : ProcState → Act → Bool}
    (P : ProcState → Prop)
    (hstep : ∀ s a, P s → bad s a = false → P (step owner s a)) :
    ∀ (acts : List Act) (s : ProcState), P s → okTrace owner bad s acts = true →
      P (acts.foldl (step owner) s) := by
  intro acts
  induction acts with
  | nil => intro s h _; exact h
  | cons a rest ih =>
    intro s hP hg
    rw [okTrace, Bool.and_eq_true, Bool.not_eq_true'] at hg
    exact ih _ (hstep s a hP hg.1) hg.2

theorem BaseInv_adm_id (s : ProcState) (i : Nat) (a a' : Adm)
    (hget : s.adms.get? i = some a)
    (hIncr : isIncr a' = isIncr a)
    (h : BaseInv s) :
    BaseInv ⟨s.db, s.queue_size, s.worker, s.adms.set i a'⟩ := by
  obtain ⟨hp, hb, hq⟩ := h
  refine ⟨hp, hb, ?_⟩
  have hcount := countP_set_same isIncr s.adms i a' hget hIncr
  simp only [pendingIncr] at hq ⊢
  omega

theorem step_BaseInv (owner : Nat → Bool) (s : ProcState) (act : Act)
    (h : BaseInv s) : BaseInv (step owner s act) := by
  obtain ⟨hp, hb, hq⟩ := h
  cases act with
  | spawn a msg loc =>
    refine ⟨hp, hb, ?_⟩
    show s.queue_size +
        (pendingIncr (s.adms ++ [⟨a, owner a, msg, loc, .checkUser⟩]) : Int) =
      (s.db.queue.length : Int) + (decrFlag s.worker : Int)
    rw [pendingIncr, countP_append_singleton]
    simpa [isIncr, pendingIncr] using hq
  | adm i =>
    cases hget : s.adms.get? i with
    | none => simp only [step, hget]; exact ⟨hp, hb, hq⟩
    | some a =>
      cases hact : admActive a with
      | false => simp only [step, hget, hact, if_neg]; exact ⟨hp, hb, hq⟩
      | true =>
        simp only [step, hget, hact, if_pos]
        cases hph : a.phase with
        | checkUser =>
          by_cases hv : !has_voice_note a.msg
          · have ha : admStep s.db s.queue_size a =
                ({ a with phase := .finished .noVoiceNote }, s.db, s.queue_size) := by
              simp [admStep, hph, hv]
            rw [ha]
            exact BaseInv_adm_id s i a _ hget (by simp [isIncr, hph]) ⟨hp, hb, hq⟩
          · by_cases hu : !a.isOwner && user_in_queue s.db a.author
            · have ha : admStep s.db s.queue_size a =
                  ({ a with phase := .finished .userInQueue }, s.db, s.queue_size) := by
                simp only [admStep, hph, if_neg hv, if_pos hu]
              rw [ha]
              exact BaseInv_adm_id s i a _ hget (by simp [isIncr, hph]) ⟨hp, hb, hq⟩
            · have ha : admStep s.db s.queue_size a =
                  ({ a with phase := .checkMsg }, s.db, s.queue_size) := by
                simp only [admStep, hph, if_neg hv, if_neg hu]
              rw [ha]
              exact BaseInv_adm_id s i a _ hget (by simp [isIncr, hph]) ⟨hp, hb, hq⟩
        | checkMsg =>
          by_cases hm : message_in_queue s.db a.msg.message_id
          · have ha : admStep s.db s.queue_size a =
                ({ a with phase := .finished .messageInQueue }, s.db, s.queue_size) := by
              simp [admStep, hph, hm]
            rw [ha]
            exact BaseInv_adm_id s i a _ hget (by simp [isIncr, hph]) ⟨hp, hb, hq⟩
          · by_cases hd : 60 < firstDuration a.msg
            · have ha : admStep s.db s.queue_size a =
                  ({ a with phase := .finished .tooLong }, s.db, s.queue_size) := by
                simp [admStep, hph, hm, hd]
              rw [ha]
              exact BaseInv_adm_id s i a _ hget (by simp [isIncr, hph]) ⟨hp, hb, hq⟩
            · have ha : admStep s.db s.queue_size a =
                  ({ a with phase := .checkCache }, s.db, s.queue_size) := by
                simp [admStep, hph, hm, hd]
              rw [ha]
              exact BaseInv_adm_id s i a _ hget (by simp [isIncr, hph]) ⟨hp, hb, hq⟩
        | checkCache =>
          cases hc : get_transcription s.db a.msg.message_id a.msg.channel_id with
          | some d =>
            have ha : admStep s.db s.queue_size a =
                ({ a with phase := .finished (.cached d) }, s.db, s.queue_size) := by
              simp [admStep, hph, hc]
            rw [ha]
            exact BaseInv_adm_id s i a _ hget (by simp [isIncr, hph]) ⟨hp, hb, hq⟩
          | none =>
            have ha : admStep s.db s.queue_size a =
                ({ a with phase := .insertJob (if s.db.task_available then
                    .queuedPosition (s.queue_size + 1) else .queuedStarting) },
                 s.db, s.queue_size) := by
              simp [admStep, hph, hc]
            rw [ha]
            exact BaseInv_adm_id s i a _ hget (by simp [isIncr, hph]) ⟨hp, hb, hq⟩
        | insertJob out =>
          have ha : admStep s.db s.queue_size a =
              ({ a with phase := .incrCount out },
               add_to_queue s.db a.author a.msg.message_id a.msg.channel_id a.loc,
               s.queue_size) := by
            simp [admStep, hph]
          rw [ha]
          have hcount := countP_set_incr isIncr s.adms i
            { a with phase := .incrCount out } hget (by simp [isIncr]) (by simp [isIncr, hph])
          refine ⟨?_, ?_, ?_⟩
          · simp only [add_to_queue]
            refine List.pairwise_append.mpr ⟨hp, List.pairwise_singleton _ _, ?_⟩
            intro x hx y hy
            rcases List.mem_singleton.mp hy with rfl
            exact hb x hx
          · intro j hj
            simp only [add_to_queue] at hj
            rcases List.mem_append.mp hj with hj | hj
            · exact Nat.lt_succ_of_lt (hb j hj)
            · rcases List.mem_singleton.mp hj with rfl
              exact Nat.lt_succ_self _
          · show s.queue_size + (pendingIncr (s.adms.set i { a with phase := .incrCount out }) : Int) =
              ((add_to_queue s.db a.author a.msg.message_id a.msg.channel_id a.loc).queue.length : Int) +
                (decrFlag s.worker : Int)
            simp only [pendingIncr] at hq ⊢
            simp only [add_to_queue, List.length_append, List.length_singleton]
            push_cast at hq ⊢
            omega
        | incrCount out =>
          have ha : admStep s.db s.queue_size a =
              ({ a with phase := .finished out }, s.db, s.queue_size + 1) := by
            simp [admStep, hph]
          rw [ha]
          have hcount := countP_set_decr isIncr s.adms i
            { a with phase := .finished out } hget (by simp [isIncr]) (by simp [isIncr, hph])
          refine ⟨hp, hb, ?_⟩
          simp only [pendingIncr] at hq ⊢
          omega
        | finished out => simp [admActive, hph] at hact
  | dequeuePop =>
    cases hw : s.worker with
    | decrementing j => simp only [step, hw]; exact ⟨hp, hb, hq⟩
    | processing j => simp only [step, hw]; exact ⟨hp, hb, hq⟩
    | idle =>
      cases hq2 : s.db.queue with
      | nil =>
        have hg : getNow s.db = none := by rw [getNow, hq2]; rfl
        simp only [step, hw, hg]
        exact ⟨hp, hb, hq⟩
      | cons j rest =>
        have hg := getNow_cons s.db j rest hq2 ⟨hp, hb⟩
        simp only [step, hw, hg]
        have hp2 : List.Pairwise (fun a b => a.id < b.id) (j :: rest) := by
          rw [hq2] at hp; exact hp
        refine ⟨hp2.of_cons, ?_, ?_⟩
        · intro k hk
          exact hb k (by rw [hq2]; exact List.mem_cons_of_mem j hk)
        · show s.queue_size + (pendingIncr s.adms : Int) =
            (rest.length : Int) + (decrFlag (WorkerState.decrementing j) : Int)
          rw [hq2, hw] at hq
          simp only [List.length_cons] at hq
          simp only [decrFlag] at hq ⊢
          push_cast at hq
          omega
  | dequeueDecr =>
    cases hw : s.worker with
    | idle => simp only [step, hw]; exact ⟨hp, hb, hq⟩
    | processing j => simp only [step, hw]; exact ⟨hp, hb, hq⟩
    | decrementing j =>
      simp only [step, hw]
      refine ⟨hp, hb, ?_⟩
      rw [hw] at hq
      simp only [decrFlag] at hq ⊢
      omega
  | wait =>
    rw [step]
    split
    · exact ⟨hp, hb, hq⟩
    · exact ⟨hp, hb, hq⟩
  | abandon =>
    cases hw : s.worker with
    | processing j =>
      simp only [step, hw]
      refine ⟨hp, hb, ?_⟩
      rw [hw] at hq
      simpa [decrFlag] using hq
    | idle => simp only [step, hw]; exact ⟨hp, hb, hq⟩
    | decrementing j => simp only [step, hw]; exact ⟨hp, hb, hq⟩
  | complete text now =>
    cases hw : s.worker with
    | processing j =>
      simp only [step, hw]
      refine ⟨hp, hb, ?_⟩
      rw [hw] at hq
      simpa [decrFlag, add_transcription] using hq
    | idle => simp only [step, hw]; exact ⟨hp, hb, hq⟩
    | decrementing j => simp only [step, hw]; exact ⟨hp, hb, hq⟩
  | sweep days now =>
    simp only [step]
    exact ⟨hp, hb, hq⟩

theorem BaseInv_initState : BaseInv initState := by
  refine ⟨List.Pairwise.nil, ?_, rfl⟩
  intro j hj
  simp [initState] at hj

theorem run_BaseInv (owner : Nat → Bool) (acts : List Act) : BaseInv (run owner acts) :=
  foldl_proc_inv BaseInv (step_BaseInv owner) acts initState BaseInv_initState

theorem lt_length_of_get? {α : Type} {l : List α} {i : Nat} {a : α}
    (h : l.get? i = some a) : i < l.length := by
  by_contra hcon
  rw [List.get?_eq_none.mpr (Nat.le_of_not_lt hcon)] at h
  cases h

theorem get?_singleton {α : Type} {x b : α} {n : Nat}
    (h : ([x] : List α).get? n = some b) : n = 0 ∧ b = x := by
  cases n with
  | zero => cases h; exact ⟨rfl, rfl⟩
  | succ n => cases h

theorem countP_filter_zero {α : Type} (p q : α → Bool) (l : List α)
    (h : l.countP p = 0) : (l.filter q).countP p = 0 :=
  Nat.le_zero.mp (h ▸ (List.filter_sublist l).countP_le p)

theorem getNow_queue_eq {db : DBState} {j : Job} {db' : DBState}
    (h : getNow db = some (j, db')) :
    db'.queue = db.queue.filter (fun k => k.id != j.id) := by
  rw [getNow] at h
  cases hs : selectOldest db.queue with
  | none => rw [hs] at h; cases h
  | some k =>
    rw [hs] at h
    simp only [Option.some.injEq, Prod.mk.injEq] at h
    obtain ⟨rfl, rfl⟩ := h
    rfl

theorem SerialInv_initState (owner : Nat → Bool) : SerialInv owner initState := by
  refine ⟨?_, ?_, ?_, ?_⟩
  · intro u _; simp [initState]
  · intro m; simp [initState]
  · intro a ha; simp [initState] at ha
  · intro i a h _
    cases h

theorem SerialInv_adm_set (owner : Nat → Bool) (s : ProcState) (qs' : Int)
    (w' : WorkerState) (i : Nat) (a a' : Adm)
    (hget : s.adms.get? i = some a) (hact : admActive a = true)
    (h : SerialInv owner s)
    (hauth : a'.author = a.author) (hown' : a'.isOwner = a.isOwner)
    (hoblig : admActive a' = true →
       (passedUser a' = true → a'.isOwner = false →
          s.db.queue.countP (fun j => j.user_id == a'.author) = 0) ∧
       (passedMsg a' = true →
          s.db.queue.countP (fun j => j.message_id == a'.msg.message_id) = 0)) :
    SerialInv owner ⟨s.db, qs', w', s.adms.set i a'⟩ := by
  obtain ⟨hu, hm, hown, hadm⟩ := h
  refine ⟨hu, hm, ?_, ?_⟩
  · intro b hb
    rcases List.mem_or_eq_of_mem_set hb with hb | rfl
    · exact hown b hb
    · rw [hown', hauth]
      exact hown a (List.get?_mem hget)
  · intro k b hgetk hactb
    dsimp only at hgetk
    by_cases hk : k = i
    · subst hk
      have hlen : k < s.adms.length := lt_length_of_get? hget
      rw [List.get?_set_eq_of_lt _ hlen] at hgetk
      cases hgetk
      refine ⟨hoblig hactb, ?_⟩
      intro k' c hgetk' hki
      dsimp only at hgetk'
      rw [List.get?_set_ne _ _ (fun he => hki he.symm)] at hgetk'
      exact (hadm k a hget hact).2 k' c hgetk' hki
    · rw [List.get?_set_ne _ _ (fun he => hk he.symm)] at hgetk
      have hfb := (hadm i a hget hact).2 k b hgetk hk
      rw [hfb] at hactb
      cases hactb

theorem step_SerialInv (owner : Nat → Bool) (s : ProcState) (act : Act)
    (h : SerialInv owner s) (hok : overlapping s act = false) :
    SerialInv owner (step owner s act) := by
  obtain ⟨hu, hm, hown, hadm⟩ := h
  cases act with
  | spawn a msg loc =>
    simp only [overlapping] at hok
    have hall : ∀ b ∈ s.adms, admActive b = false := fun b hb => by
      have := List.any_eq_false.mp hok b hb
      simpa using this
    simp only [step]
    refine ⟨hu, hm, ?_, ?_⟩
    · intro b hb
      rcases List.mem_append.mp hb with hb | hb
      · exact hown b hb
      · rcases List.mem_singleton.mp hb with rfl
        rfl
    · intro i b hget hact
      by_cases hi : i < s.adms.length
      · rw [List.get?_append hi] at hget
        have := hall b (List.get?_mem hget)
        rw [this] at hact
        cases hact
      · rw [List.get?_append_right (Nat.le_of_not_lt hi)] at hget
        obtain ⟨hi0, rfl⟩ := get?_singleton hget
        refine ⟨⟨?_, ?_⟩, ?_⟩
        · intro hpu
          simp [passedUser] at hpu
        · intro hpm
          simp [passedMsg] at hpm
        · intro k c hgetk hki
          by_cases hkl : k < s.adms.length
          · rw [List.get?_append hkl] at hgetk
            exact hall c (List.get?_mem hgetk)
          · rw [List.get?_append_right (Nat.le_of_not_lt hkl)] at hgetk
            obtain ⟨hk0, rfl⟩ := get?_singleton hgetk
            exact absurd (by omega : k = i) hki
  | adm i =>
    cases hget : s.adms.get? i with
    | none => simp only [step, hget]; exact ⟨hu, hm, hown, hadm⟩
    | some a =>
      cases hact : admActive a with
      | false => simp only [step, hget, hact, if_neg]; exact ⟨hu, hm, hown, hadm⟩
      | true =>
        simp only [step, hget, hact, if_pos]
        cases hph : a.phase with
        | checkUser =>
          by_cases hv : !has_voice_note a.msg
          · have ha : admStep s.db s.queue_size a =
                ({ a with phase := .finished .noVoiceNote }, s.db, s.queue_size) := by
              simp [admStep, hph, hv]
            rw [ha]
            refine SerialInv_adm_set owner s _ _ i a _ hget hact ⟨hu, hm, hown, hadm⟩ rfl rfl ?_
            intro hactive
            simp [admActive] at hactive
          · by_cases hus : !a.isOwner && user_in_queue s.db a.author
            · have ha : admStep s.db s.queue_size a =
                  ({ a with phase := .finished .userInQueue }, s.db, s.queue_size) := by
                simp only [admStep, hph, if_neg hv, if_pos hus]
              rw [ha]
              refine SerialInv_adm_set owner s _ _ i a _ hget hact ⟨hu, hm, hown, hadm⟩ rfl rfl ?_
              intro hactive
              simp [admActive] at hactive
            · have ha : admStep s.db s.queue_size a =
                  ({ a with phase := .checkMsg }, s.db, s.queue_size) := by
                simp only [admStep, hph, if_neg hv, if_neg hus]
              rw [ha]
              refine SerialInv_adm_set owner s _ _ i a _ hget hact ⟨hu, hm, hown, hadm⟩ rfl rfl ?_
              intro _
              refine ⟨?_, ?_⟩
              · intro _ hio
                have hio' : a.isOwner = false := hio
                have hus' : (!a.isOwner && user_in_queue s.db a.author) = false := by
                  cases hx : (!a.isOwner && user_in_queue s.db a.author) with
                  | false => rfl
                  | true => exact absurd hx hus
                rw [hio'] at hus'
                simp only [Bool.not_false, Bool.true_and] at hus'
                rw [user_in_queue] at hus'
                exact countP_zero_of_any_false _ _ hus'
              · intro hpm
                simp [passedMsg] at hpm
        | checkMsg =>
          by_cases hmq : message_in_queue s.db a.msg.message_id
          · have ha : admStep s.db s.queue_size a =
                ({ a with phase := .finished .messageInQueue }, s.db, s.queue_size) := by
              simp [admStep, hph, hmq]
            rw [ha]
            refine SerialInv_adm_set owner s _ _ i a _ hget hact ⟨hu, hm, hown, hadm⟩ rfl rfl ?_
            intro hactive
            simp [admActive] at hactive
          · by_cases hd : 60 < firstDuration a.msg
            · have ha : admStep s.db s.queue_size a =
                  ({ a with phase := .finished .tooLong }, s.db, s.queue_size) := by
                simp [admStep, hph, hmq, hd]
              rw [ha]
              refine SerialInv_adm_set owner s _ _ i a _ hget hact ⟨hu, hm, hown, hadm⟩ rfl rfl ?_
              intro hactive
              simp [admActive] at hactive
            · have ha : admStep s.db s.queue_size a =
                  ({ a with phase := .checkCache }, s.db, s.queue_size) := by
                simp [admStep, hph, hmq, hd]
              rw [ha]
              refine SerialInv_adm_set owner s _ _ i a _ hget hact ⟨hu, hm, hown, hadm⟩ rfl rfl ?_
              intro _
              refine ⟨?_, ?_⟩
              · intro _ hio
                exact (hadm i a hget hact).1.1 (by simp [passedUser, hph]) hio
              · intro _
                have hmq' : message_in_queue s.db a.msg.message_id = false := by
                  cases hx : message_in_queue s.db a.msg.message_id with
                  | false => rfl
                  | true => exact absurd hx hmq
                rw [message_in_queue] at hmq'
                exact countP_zero_of_any_false _ _ hmq'
        | checkCache =>
          cases hc : get_transcription s.db a.msg.message_id a.msg.channel_id with
          | some d =>
            have ha : admStep s.db s.queue_size a =
                ({ a with phase := .finished (.cached d) }, s.db, s.queue_size) := by
              simp [admStep, hph, hc]
            rw [ha]
            refine SerialInv_adm_set owner s _ _ i a _ hget hact ⟨hu, hm, hown, hadm⟩ rfl rfl ?_
            intro hactive
            simp [admActive] at hactive
          | none =>
            have ha : admStep s.db s.queue_size a =
                ({ a with phase := .insertJob (if s.db.task_available then
                    .queuedPosition (s.queue_size + 1) else .queuedStarting) },
                 s.db, s.queue_size) := by
              simp [admStep, hph, hc]
            rw [ha]
            refine SerialInv_adm_set owner s _ _ i a _ hget hact ⟨hu, hm, hown, hadm⟩ rfl rfl ?_
            intro _
            refine ⟨?_, ?_⟩
            · intro _ hio
              exact (hadm i a hget hact).1.1 (by simp [passedUser, hph]) hio
            · intro _
              exact (hadm i a hget hact).1.2 (by simp [passedMsg, hph])
        | insertJob out =>
          have ha : admStep s.db s.queue_size a =
              ({ a with phase := .incrCount out },
               add_to_queue s.db a.author a.msg.message_id a.msg.channel_id a.loc,
               s.queue_size) := by
            simp [admStep, hph]
          rw [ha]
          have hmsg0 : s.db.queue.countP (fun j => j.message_id == a.msg.message_id) = 0 :=
            (hadm i a hget hact).1.2 (by simp [passedMsg, hph])
          refine ⟨?_, ?_, ?_, ?_⟩
          · intro u hou
            show ((add_to_queue s.db a.author a.msg.message_id a.msg.channel_id
                a.loc).queue.countP (fun j => j.user_id == u)) ≤ 1
            simp only [add_to_queue]
            rw [countP_append_singleton]
            by_cases hau : a.author = u
            · subst hau
              have hio : a.isOwner = false := by
                rw [hown a (List.get?_mem hget)]
                exact hou
              have h0 := (hadm i a hget hact).1.1 (by simp [passedUser, hph]) hio
              simp [h0]
            · simpa [hau] using hu u hou
          · intro m
            show ((add_to_queue s.db a.author a.msg.message_id a.msg.channel_id
                a.loc).queue.countP (fun j => j.message_id == m)) ≤ 1
            simp only [add_to_queue]
            rw [countP_append_singleton]
            by_cases hm0 : a.msg.message_id = m
            · subst hm0
              simp [hmsg0]
            · simpa [hm0] using hm m
          · intro b hb
            rcases List.mem_or_eq_of_mem_set hb with hb | rfl
            · exact hown b hb
            · exact hown a (List.get?_mem hget)
          · intro k b hgetk hactb
            dsimp only at hgetk
            by_cases hk : k = i
            · subst hk
              have hlen : k < s.adms.length := lt_length_of_get? hget
              rw [List.get?_set_eq_of_lt _ hlen] at hgetk
              cases hgetk
              refine ⟨⟨?_, ?_⟩, ?_⟩
              · intro hpu
                simp [passedUser] at hpu
              · intro hpm
                simp [passedMsg] at hpm
              · intro kk c hgetk2 hki
                dsimp only at hgetk2
                rw [List.get?_set_ne _ _ (fun he => hki he.symm)] at hgetk2
                exact (hadm k a hget hact).2 kk c hgetk2 hki
            · rw [List.get?_set_ne _ _ (fun he => hk he.symm)] at hgetk
              have hfb := (hadm i a hget hact).2 k b hgetk hk
              rw [hfb] at hactb
              cases hactb
        | incrCount out =>
          have ha : admStep s.db s.queue_size a =
              ({ a with phase := .finished out }, s.db, s.queue_size + 1) := by
            simp [admStep, hph]
          rw [ha]
          refine SerialInv_adm_set owner s _ _ i a _ hget hact ⟨hu, hm, hown, hadm⟩ rfl rfl ?_
          intro hactive
          simp [admActive] at hactive
        | finished out => simp [admActive, hph] at hact
  | dequeuePop =>
    cases hw : s.worker with
    | decrementing j => simp only [step, hw]; exact ⟨hu, hm, hown, hadm⟩
    | processing j => simp only [step, hw]; exact ⟨hu, hm, hown, hadm⟩
    | idle =>
      cases hg : getNow s.db with
      | none => simp only [step, hw, hg]; exact ⟨hu, hm, hown, hadm⟩
      | some pr =>
        obtain ⟨j0, db2⟩ := pr
        simp only [step, hw, hg]
        have hq2 := getNow_queue_eq hg
        refine ⟨?_, ?_, hown, ?_⟩
        · intro u hou
          rw [hq2]
          exact Nat.le_trans ((List.filter_sublist _).countP_le _) (hu u hou)
        · intro m
          rw [hq2]
          exact Nat.le_trans ((List.filter_sublist _).countP_le _) (hm m)
        · intro k b hgetk hactb
          refine ⟨⟨?_, ?_⟩, (hadm k b hgetk hactb).2⟩
          · intro hpu hio
            rw [hq2]
            exact countP_filter_zero _ _ _ ((hadm k b hgetk hactb).1.1 hpu hio)
          · intro hpm
            rw [hq2]
            exact countP_filter_zero _ _ _ ((hadm k b hgetk hactb).1.2 hpm)
  | dequeueDecr =>
    cases hw : s.worker with
    | idle => simp only [step, hw]; exact ⟨hu, hm, hown, hadm⟩
    | processing j => simp only [step, hw]; exact ⟨hu, hm, hown, hadm⟩
    | decrementing j => simp only [step, hw]; exact ⟨hu, hm, hown, hadm⟩
  | wait =>
    rw [step]
    split
    · exact ⟨hu, hm, hown, hadm⟩
    · exact ⟨hu, hm, hown, hadm⟩
  | abandon =>
    cases hw : s.worker with
    | processing j => simp only [step, hw]; exact ⟨hu, hm, hown, hadm⟩
    | idle => simp only [step, hw]; exact ⟨hu, hm, hown, hadm⟩
    | decrementing j => simp only [step, hw]; exact ⟨hu, hm, hown, hadm⟩
  | complete text now =>
    cases hw : s.worker with
    | processing j => simp only [step, hw]; exact ⟨hu, hm, hown, hadm⟩
    | idle => simp only [step, hw]; exact ⟨hu, hm, hown, hadm⟩
    | decrementing j => simp only [step, hw]; exact ⟨hu, hm, hown, hadm⟩
  | sweep days now =>
    simp only [step]
    exact ⟨hu, hm, hown, hadm⟩

theorem run_SerialInv (owner : Nat → Bool) (acts : List Act)
    (h : okTrace owner overlapping initState acts = true) :
    SerialInv owner (run owner acts) :=
  okTrace_foldl (SerialInv owner) (fun s a hs hok => step_SerialInv owner s a hs hok)
    acts initState (SerialInv_initState owner) h

theorem CacheInvF_initState : CacheInvF initState := by
  refine ⟨?_, ?_, ?_, ?_⟩
  · intro m c; simp [initState]
  · intro j hj; simp [initState] at hj
  · intro j hj; cases hj
  · intro a ha; simp [initState] at ha

theorem step_CacheInvF (owner : Nat → Bool) (s : ProcState) (act : Act)
    (hB : BaseInv s) (hS : SerialInv owner s) (h : CacheInvF s)
    (hni : interferes s act = false) :
    CacheInvF (step owner s act) := by
  obtain ⟨hbp, hbb, _⟩ := hB
  obtain ⟨hsu, hsm, hsown, hsadm⟩ := hS
  obtain ⟨hc1, hc2, hc3, hc4⟩ := h
  cases act with
  | spawn a msg loc =>
    simp only [step]
    refine ⟨hc1, hc2, hc3, ?_⟩
    intro b hb out hph
    rcases List.mem_append.mp hb with hb | hb
    · exact hc4 b hb out hph
    · rcases List.mem_singleton.mp hb with rfl
      cases hph
  | adm i =>
    cases hget : s.adms.get? i with
    | none => simp only [step, hget]; exact ⟨hc1, hc2, hc3, hc4⟩
    | some a =>
      cases hact : admActive a with
      | false => simp only [step, hget, hact, if_neg]; exact ⟨hc1, hc2, hc3, hc4⟩
      | true =>
        simp only [step, hget, hact, if_pos]
        cases hph : a.phase with
        | checkUser =>
          by_cases hv : !has_voice_note a.msg
          · have ha : admStep s.db s.queue_size a =
                ({ a with phase := .finished .noVoiceNote }, s.db, s.queue_size) := by
              simp [admStep, hph, hv]
            rw [ha]
            refine ⟨hc1, hc2, hc3, ?_⟩
            intro b hb out hph2
            rcases List.mem_or_eq_of_mem_set hb with hb | rfl
            · exact hc4 b hb out hph2
            · cases hph2
          · by_cases hus : !a.isOwner && user_in_queue s.db a.author
            · have ha : admStep s.db s.queue_size a =
                  ({ a with phase := .finished .userInQueue }, s.db, s.queue_size) := by
                simp only [admStep, hph, if_neg hv, if_pos hus]
              rw [ha]
              refine ⟨hc1, hc2, hc3, ?_⟩
              intro b hb out hph2
              rcases List.mem_or_eq_of_mem_set hb with hb | rfl
              · exact hc4 b hb out hph2
              · cases hph2
            · have ha : admStep s.db s.queue_size a =
                  ({ a with phase := .checkMsg }, s.db, s.queue_size) := by
                simp only [admStep, hph, if_neg hv, if_neg hus]
              rw [ha]
              refine ⟨hc1, hc2, hc3, ?_⟩
              intro b hb out hph2
              rcases List.mem_or_eq_of_mem_set hb with hb | rfl
              · exact hc4 b hb out hph2
              · cases hph2
        | checkMsg =>
          by_cases hmq : message_in_queue s.db a.msg.message_id
          · have ha : admStep s.db s.queue_size a =
                ({ a with phase := .finished .messageInQueue }, s.db, s.queue_size) := by
              simp [admStep, hph, hmq]
            rw [ha]
            refine ⟨hc1, hc2, hc3, ?_⟩
            intro b hb out hph2
            rcases List.mem_or_eq_of_mem_set hb with hb | rfl
            · exact hc4 b hb out hph2
            · cases hph2
          · by_cases hd : 60 < firstDuration a.msg
            · have ha : admStep s.db s.queue_size a =
                  ({ a with phase := .finished .tooLong }, s.db, s.queue_size) := by
                simp [admStep, hph, hmq, hd]
              rw [ha]
              refine ⟨hc1, hc2, hc3, ?_⟩
              intro b hb out hph2
              rcases List.mem_or_eq_of_mem_set hb with hb | rfl
              · exact hc4 b hb out hph2
              · cases hph2
            · have ha : admStep s.db s.queue_size a =
                  ({ a with phase := .checkCache }, s.db, s.queue_size) := by
                simp [admStep, hph, hmq, hd]
              rw [ha]
              refine ⟨hc1, hc2, hc3, ?_⟩
              intro b hb out hph2
              rcases List.mem_or_eq_of_mem_set hb with hb | rfl
              · exact hc4 b hb out hph2
              · cases hph2
        | checkCache =>
          cases hc : get_transcription s.db a.msg.message_id a.msg.channel_id with
          | some d =>
            have ha : admStep s.db s.queue_size a =
                ({ a with phase := .finished (.cached d) }, s.db, s.queue_size) := by
              simp [admStep, hph, hc]
            rw [ha]
            refine ⟨hc1, hc2, hc3, ?_⟩
            intro b hb out hph2
            rcases List.mem_or_eq_of_mem_set hb with hb | rfl
            · exact hc4 b hb out hph2
            · cases hph2
          | none =>
            have ha : admStep s.db s.queue_size a =
                ({ a with phase := .insertJob (if s.db.task_available then
                    .queuedPosition (s.queue_size + 1) else .queuedStarting) },
                 s.db, s.queue_size) := by
              simp [admStep, hph, hc]
            rw [ha]
            refine ⟨hc1, hc2, hc3, ?_⟩
            intro b hb out hph2
            rcases List.mem_or_eq_of_mem_set hb with hb | rfl
            · exact hc4 b hb out hph2
            · refine ⟨?_, ?_⟩
              · intro t ht
                rintro ⟨h1, h2⟩
                have := List.find?_eq_none.mp hc t ht
                simp only [Bool.and_eq_true, beq_iff_eq, not_and] at this
                exact this h1 h2
              · intro j hfl
                have h2 := hni
                simp only [interferes, hget, hfl] at h2
                rw [hact] at h2
                simpa using h2
        | insertJob out =>
          have ha : admStep s.db s.queue_size a =
              ({ a with phase := .incrCount out },
               add_to_queue s.db a.author a.msg.message_id a.msg.channel_id a.loc,
               s.queue_size) := by
            simp [admStep, hph]
          rw [ha]
          have hmem := List.get?_mem hget
          have hself := hc4 a hmem out hph
          refine ⟨hc1, ?_, ?_, ?_⟩
          · intro k hk t ht
            show ¬(t.message_id = k.message_id ∧ t.channel_id = k.channel_id)
            have hk2 : k ∈ s.db.queue ++
                [(⟨s.db.nextQueueId, a.author, a.msg.message_id, a.msg.channel_id,
                  a.loc⟩ : Job)] := hk
            rcases List.mem_append.mp hk2 with hk3 | hk3
            · exact hc2 k hk3 t ht
            · rcases List.mem_singleton.mp hk3 with rfl
              rintro ⟨h1, h2⟩
              exact hself.1 t ht ⟨h1, h2⟩
          · intro j hfl
            refine ⟨(hc3 j hfl).1, ?_⟩
            intro k hk
            have hk2 : k ∈ s.db.queue ++
                [(⟨s.db.nextQueueId, a.author, a.msg.message_id, a.msg.channel_id,
                  a.loc⟩ : Job)] := hk
            rcases List.mem_append.mp hk2 with hk3 | hk3
            · exact (hc3 j hfl).2 k hk3
            · rcases List.mem_singleton.mp hk3 with rfl
              exact hself.2 j hfl
          · intro b hb out2 hph2
            rcases List.mem_or_eq_of_mem_set hb with hb | rfl
            · exact ⟨(hc4 b hb out2 hph2).1, (hc4 b hb out2 hph2).2⟩
            · cases hph2
        | incrCount out =>
          have ha : admStep s.db s.queue_size a =
              ({ a with phase := .finished out }, s.db, s.queue_size + 1) := by
            simp [admStep, hph]
          rw [ha]
          refine ⟨hc1, hc2, hc3, ?_⟩
          intro b hb out2 hph2
          rcases List.mem_or_eq_of_mem_set hb with hb | rfl
          · exact hc4 b hb out2 hph2
          · cases hph2
        | finished out => simp [admActive, hph] at hact
  | dequeuePop =>
    cases hw : s.worker with
    | decrementing j => simp only [step, hw]; exact ⟨hc1, hc2, hc3, hc4⟩
    | processing j => simp only [step, hw]; exact ⟨hc1, hc2, hc3, hc4⟩
    | idle =>
      cases hq2 : s.db.queue with
      | nil =>
        have hg : getNow s.db = none := by rw [getNow, hq2]; rfl
        simp only [step, hw, hg]
        exact ⟨hc1, hc2, hc3, hc4⟩
      | cons j rest =>
        have hg := getNow_cons s.db j rest hq2 ⟨hbp, hbb⟩
        simp only [step, hw, hg]
        refine ⟨hc1, ?_, ?_, ?_⟩
        · intro k hk t ht
          exact hc2 k (by rw [hq2]; exact List.mem_cons_of_mem j hk) t ht
        · intro j2 hfl
          cases hfl
          refine ⟨?_, ?_⟩
          · intro t ht
            exact hc2 j (by rw [hq2]; exact List.mem_cons_self _ _) t ht
          · intro k hk
            have h1 := hsm j.message_id
            rw [hq2, List.countP_cons] at h1
            simp only [beq_self_eq_true, if_true] at h1
            have h0 : rest.countP (fun k => k.message_id == j.message_id) = 0 := by omega
            have := List.countP_eq_zero.mp h0 k hk
            simpa using this
        · intro b hb out hph
          refine ⟨(hc4 b hb out hph).1, ?_⟩
          intro j2 hfl
          cases hfl
          obtain ⟨k, hgetk⟩ := List.get?_of_mem hb
          have hactiveb : admActive b = true := by simp [admActive, hph]
          have hz := (hsadm k b hgetk hactiveb).1.2 (by simp [passedMsg, hph])
          intro hcontra
          have hjq : j ∈ s.db.queue := by rw [hq2]; exact List.mem_cons_self _ _
          have := List.countP_eq_zero.mp hz j hjq
          simp [hcontra] at this
  | dequeueDecr =>
    cases hw : s.worker with
    | idle => simp only [step, hw]; exact ⟨hc1, hc2, hc3, hc4⟩
    | processing j => simp only [step, hw]; exact ⟨hc1, hc2, hc3, hc4⟩
    | decrementing j =>
      simp only [step, hw]
      refine ⟨hc1, hc2, ?_, ?_⟩
      · intro j2 hfl
        cases hfl
        exact hc3 j (by rw [hw]; rfl)
      · intro b hb out hph
        refine ⟨(hc4 b hb out hph).1, ?_⟩
        intro j2 hfl
        cases hfl
        exact (hc4 b hb out hph).2 j (by rw [hw]; rfl)
  | wait =>
    rw [step]
    split
    · exact ⟨hc1, hc2, hc3, hc4⟩
    · exact ⟨hc1, hc2, hc3, hc4⟩
  | abandon =>
    cases hw : s.worker with
    | processing j =>
      simp only [step, hw]
      refine ⟨hc1, hc2, ?_, ?_⟩
      · intro j2 hfl
        cases hfl
      · intro b hb out hph
        refine ⟨(hc4 b hb out hph).1, ?_⟩
        intro j2 hfl
        cases hfl
    | idle => simp only [step, hw]; exact ⟨hc1, hc2, hc3, hc4⟩
    | decrementing j => simp only [step, hw]; exact ⟨hc1, hc2, hc3, hc4⟩
  | complete text now =>
    cases hw : s.worker with
    | processing j =>
      simp only [step, hw]
      have hfl : inFlight s.worker = some j := by rw [hw]; rfl
      obtain ⟨hw1, hw2⟩ := hc3 j hfl
      refine ⟨?_, ?_, ?_, ?_⟩
      · intro m c
        show ((add_transcription s.db j.message_id j.channel_id text
            now).1.transcriptions.countP
          (fun t => t.message_id == m && t.channel_id == c)) ≤ 1
        simp only [add_transcription]
        rw [countP_append_singleton]
        by_cases hpair : j.message_id = m ∧ j.channel_id = c
        · obtain ⟨rfl, rfl⟩ := hpair
          have h0 : s.db.transcriptions.countP
              (fun t => t.message_id == j.message_id && t.channel_id == j.channel_id) = 0 := by
            rw [List.countP_eq_zero]
            intro t ht
            have := hw1 t ht
            simpa using this
          simp [h0]
        · have hcond : (j.message_id == m && j.channel_id == c) = false := by
            rw [Bool.eq_false_iff]
            intro hcontra
            rw [Bool.and_eq_true] at hcontra
            exact hpair ⟨by simpa using hcontra.1, by simpa using hcontra.2⟩
          dsimp only
          rw [hcond]
          simpa using hc1 m c
      · intro k hk t ht
        have ht2 : t ∈ s.db.transcriptions ++
            [(⟨s.db.nextTransId, j.message_id, j.channel_id, text, now⟩ :
              Transcription)] := ht
        rcases List.mem_append.mp ht2 with ht3 | ht3
        · exact hc2 k hk t ht3
        · rcases List.mem_singleton.mp ht3 with rfl
          rintro ⟨h1, _⟩
          exact hw2 k hk h1.symm
      · intro j2 hfl2
        cases hfl2
      · intro b hb out hph
        refine ⟨?_, ?_⟩
        · intro t ht
          have ht2 : t ∈ s.db.transcriptions ++
              [(⟨s.db.nextTransId, j.message_id, j.channel_id, text, now⟩ :
                Transcription)] := ht
          rcases List.mem_append.mp ht2 with ht3 | ht3
          · exact (hc4 b hb out hph).1 t ht3
          · rcases List.mem_singleton.mp ht3 with rfl
            rintro ⟨h1, _⟩
            exact (hc4 b hb out hph).2 j hfl h1.symm
        · intro j2 hfl2
          cases hfl2
    | idle => simp only [step, hw]; exact ⟨hc1, hc2, hc3, hc4⟩
    | decrementing j => simp only [step, hw]; exact ⟨hc1, hc2, hc3, hc4⟩
  | sweep days now =>
    simp only [step]
    refine ⟨?_, ?_, ?_, ?_⟩
    · intro m c
      simp only [delete_outdated]
      exact Nat.le_trans ((List.filter_sublist _).countP_le _) (hc1 m c)
    · intro k hk t ht
      simp only [delete_outdated] at ht
      exact hc2 k hk t (List.mem_of_mem_filter ht)
    · intro j hfl
      refine ⟨?_, (hc3 j hfl).2⟩
      intro t ht
      simp only [delete_outdated] at ht
      exact (hc3 j hfl).1 t (List.mem_of_mem_filter ht)
    · intro b hb out hph
      refine ⟨?_, (hc4 b hb out hph).2⟩
      intro t ht
      simp only [delete_outdated] at ht
      exact (hc4 b hb out hph).1 t (List.mem_of_mem_filter ht)

theorem run_CacheInvF (owner : Nat → Bool) (acts : List Act)
    (h : okTrace owner (fun s a => overlapping s a || interferes s a)
        initState acts = true) :
    CacheInvF (run owner acts) := by
  have hmain := okTrace_foldl
    (fun s => BaseInv s ∧ SerialInv owner s ∧ CacheInvF s)
    (fun s a hs hok => by
      rw [Bool.or_eq_false_iff] at hok
      exact ⟨step_BaseInv owner s a hs.1,
             step_SerialInv owner s a hs.2.1 hok.1,
             step_CacheInvF owner s a hs.1 hs.2.1 hs.2.2 hok.2⟩)
    acts initState
    ⟨BaseInv_initState, SerialInv_initState owner, CacheInvF_initState⟩ h
  exact hmain.2.2

/-- Counterexample to C3: two invocations of the command for the same
message interleave between their checks and their inserts — both read
`message_in_queue = false` before either runs `add_to_queue` — so the
queue ends up holding two Jobs with `sourceMessageId = 100`: the
'at every instant at most one Job per sourceMessageId' invariant is
false of the interleaved program. -/
theorem claim_C3_counterexample :
    (run (fun _ => false) [.spawn 1 ⟨100, 9, [⟨30⟩], 8192⟩ "en-US",
        .spawn 2 ⟨100, 9, [⟨30⟩], 8192⟩ "en-US",
        .adm 0, .adm 0, .adm 1, .adm 1, .adm 0, .adm 1, .adm 0,
        .adm 1]).db.queue.countP (fun j => j.message_id == 100) = 2 := by
  decide

/-- C3 (amended): when admission chains run serially — a new
invocation spawns only after every earlier one finished — every
reachable state holds at most one queued Job per non-owner submitter
and at most one per message; and an admission reaching its duplicate
checks while a Job with its submitter and message is pending finishes
rejected — `userInQueue` at `checkUser` for non-owners,
`messageInQueue` at `checkMsg` for the owner — leaving the store
untouched: no enqueue. -/
theorem claim_C3 (owner : Nat → Bool) (acts : List Act)
    (h : okTrace owner overlapping initState acts = true) :
    (∀ u, owner u = false →
        (run owner acts).db.queue.countP (fun j => j.user_id == u) ≤ 1) ∧
    (∀ m, (run owner acts).db.queue.countP (fun j => j.message_id == m) ≤ 1) ∧
    (∀ (db : DBState) (qs : Int) (a : Adm) (j : Job),
        j ∈ db.queue → j.user_id = a.author → j.message_id = a.msg.message_id →
        has_voice_note a.msg = true →
        (a.phase = .checkUser → a.isOwner = false →
            admStep db qs a = ({ a with phase := .finished .userInQueue }, db, qs)) ∧
        (a.phase = .checkUser → a.isOwner = true →
            admStep db qs a = ({ a with phase := .checkMsg }, db, qs)) ∧
        (a.phase = .checkMsg →
            admStep db qs a = ({ a with phase := .finished .messageInQueue }, db, qs))) := by
  obtain ⟨hu, hm, _, _⟩ := run_SerialInv owner acts h
  refine ⟨hu, hm, ?_⟩
  intro db qs a j hj hju hjm hv
  have huq : user_in_queue db a.author = true := by
    rw [user_in_queue, List.any_eq_true]
    exact ⟨j, hj, by simp [hju]⟩
  have hmq : message_in_queue db a.msg.message_id = true := by
    rw [message_in_queue, List.any_eq_true]
    exact ⟨j, hj, by simp [hjm]⟩
  refine ⟨?_, ?_, ?_⟩
  · intro hph hio
    simp [admStep, hph, hv, hio, huq]
  · intro hph hio
    simp [admStep, hph, hv, hio, huq]
  · intro hph
    simp [admStep, hph, hmq]

/-- Witness for C3: a serialized trace (one full admission) keeps the
per-message queue count at most one. -/
theorem claim_C3_witness :
    (run (fun _ => false) [.spawn 1 ⟨100, 9, [⟨30⟩], 8192⟩ "en-US", .adm 0, .adm 0,
        .adm 0, .adm 0, .adm 0]).db.queue.countP (fun j => j.message_id == 100) ≤ 1 :=
  (claim_C3 (fun _ => false) [.spawn 1 ⟨100, 9, [⟨30⟩], 8192⟩ "en-US", .adm 0, .adm 0,
      .adm 0, .adm 0, .adm 0] (by decide)).2.1 100

/-- Counterexample to C5: two admissions of message 100 overlap before
any dequeue — every step of both happens with the worker idle, so the
trace is free of admission/worker races — yet both pass every check
before either inserts, both jobs are enqueued, and the worker (which
never re-checks the cache) writes two results for the pair
`(100, 9)`. -/
theorem claim_C5_counterexample :
    okTrace (fun _ => false) interferes initState
        [.spawn 1 ⟨100, 9, [⟨30⟩], 8192⟩ "en-US",
         .spawn 2 ⟨100, 9, [⟨30⟩], 8192⟩ "en-US",
         .adm 0, .adm 0, .adm 1, .adm 1, .adm 0, .adm 0, .adm 0, .adm 1, .adm 1, .adm 1,
         .dequeuePop, .dequeueDecr, .complete "hello" 1000,
         .dequeuePop, .dequeueDecr, .complete "hello again" 1001] = true ∧
    (run (fun _ => false) [.spawn 1 ⟨100, 9, [⟨30⟩], 8192⟩ "en-US",
        .spawn 2 ⟨100, 9, [⟨30⟩], 8192⟩ "en-US",
        .adm 0, .adm 0, .adm 1, .adm 1, .adm 0, .adm 0, .adm 0, .adm 1, .adm 1, .adm 1,
        .dequeuePop, .dequeueDecr, .complete "hello" 1000,
        .dequeuePop, .dequeueDecr,
        .complete "hello again" 1001]).db.transcriptions.countP
      (fun t => t.message_id == 100 && t.channel_id == 9) = 2 := by
  refine ⟨by decide, by decide⟩

/-- C5 (amended): along traces whose admissions are serialized and
never resumed for a message while that message's popped job is in
flight, every reachable state stores at most one transcription per
`(message_id, channel_id)` pair.  Either condition alone fails:
overlapping admissions of one message, or a resubmission racing the
in-flight job, each produce a second result for the pair. -/
theorem claim_C5 (owner : Nat → Bool) (acts : List Act)
    (h : okTrace owner (fun s a => overlapping s a || interferes s a)
        initState acts = true) :
    ∀ m c : Nat, (run owner acts).db.transcriptions.countP
        (fun t => t.message_id == m && t.channel_id == c) ≤ 1 :=
  fun m c => (run_CacheInvF owner acts h).1 m c

/-- Witness for C5: a serialized race-free trace (one admission, then
pop, decrement, complete) ends with at most one result for
`(100, 9)`. -/
theorem claim_C5_witness :
    (run (fun _ => false) [.spawn 1 ⟨100, 9, [⟨30⟩], 8192⟩ "en-US", .adm 0, .adm 0,
        .adm 0, .adm 0, .adm 0, .dequeuePop, .dequeueDecr,
        .complete "hi" 10]).db.transcriptions.countP
      (fun t => t.message_id == 100 && t.channel_id == 9) ≤ 1 :=
  claim_C5 (fun _ => false) [.spawn 1 ⟨100, 9, [⟨30⟩], 8192⟩ "en-US", .adm 0, .adm 0,
    .adm 0, .adm 0, .adm 0, .dequeuePop, .dequeueDecr, .complete "hi" 10]
    (by decide) 100 9

/-- Counterexample to C7: submitter 3 reaches the decision step after
submitter 2's insert has committed but before submitter 2 runs
`queue_size += 1`, so it reads the stale counter 1 and records
position `2`, while the store's `size()` at decision time is 2 — the
claimed `size() + 1 = 3` — and fresh-start acceptances record the
`starting` embed with no position at all. -/
theorem claim_C7_counterexample :
    (run (fun _ => false) [.spawn 1 ⟨50, 9, [⟨20⟩], 8192⟩ "en-US", .adm 0, .adm 0,
        .adm 0, .adm 0, .adm 0,
        .spawn 2 ⟨100, 9, [⟨30⟩], 8192⟩ "en-US", .adm 1, .adm 1, .adm 1, .adm 1,
        .spawn 3 ⟨200, 9, [⟨10⟩], 8192⟩ "en-US", .adm 2, .adm 2, .adm 2]).adms.get? 2 =
      some ⟨3, false, ⟨200, 9, [⟨10⟩], 8192⟩, "en-US",
        .insertJob (.queuedPosition 2)⟩ ∧
    get_queue_size (run (fun _ => false) [.spawn 1 ⟨50, 9, [⟨20⟩], 8192⟩ "en-US",
        .adm 0, .adm 0, .adm 0, .adm 0, .adm 0,
        .spawn 2 ⟨100, 9, [⟨30⟩], 8192⟩ "en-US", .adm 1, .adm 1, .adm 1, .adm 1,
        .spawn 3 ⟨200, 9, [⟨10⟩], 8192⟩ "en-US", .adm 2, .adm 2, .adm 2]).db = 2 ∧
    (2 : Int) ≠ (2 : Int) + 1 := by
  refine ⟨by decide, by decide, by decide⟩

/-- C7 (amended): at any reachable state where no admission has
committed its insert without yet incrementing the counter and the
worker is not between pop and decrement, the in-memory counter equals
the store's `size()`; an admission deciding there records position
`counter + 1 = size() + 1` when the availability flag is set, and the
`starting` embed — no position — when it is unset.  In general the
counter is stale at decision time, as the counterexample's
interleaving shows. -/
theorem claim_C7 (owner : Nat → Bool) (acts : List Act) (a : Adm)
    (hq : pendingIncr (run owner acts).adms = 0)
    (hw : decrFlag (run owner acts).worker = 0)
    (hph : a.phase = .checkCache)
    (hc : get_transcription (run owner acts).db a.msg.message_id
        a.msg.channel_id = none) :
    (run owner acts).queue_size = (get_queue_size (run owner acts).db : Int) ∧
    ((run owner acts).db.task_available = true →
      admStep (run owner acts).db (run owner acts).queue_size a =
        ({ a with phase := (AdmPhase.insertJob
            (.queuedPosition ((get_queue_size (run owner acts).db : Int) + 1))) },
         (run owner acts).db, (run owner acts).queue_size)) ∧
    ((run owner acts).db.task_available = false →
      admStep (run owner acts).db (run owner acts).queue_size a =
        ({ a with phase := .insertJob .queuedStarting },
         (run owner acts).db, (run owner acts).queue_size)) := by
  obtain ⟨_, _, hbq⟩ := run_BaseInv owner acts
  rw [hq, hw] at hbq
  have hsz : (run owner acts).queue_size =
      (get_queue_size (run owner acts).db : Int) := by
    rw [get_queue_size]
    omega
  refine ⟨hsz, ?_, ?_⟩
  · intro hta
    rw [admStep, hph]
    simp only [hc, hta, if_pos]
    rw [hsz]
  · intro hta
    rw [admStep, hph]
    simp only [hc, hta]
    rw [if_neg (by simp)]

/-- Witness for C7: with one committed, fully counted job queued (flag
set, counter 1 = size), a deciding admission records position
`2 = size() + 1`. -/
theorem claim_C7_witness :
    admStep (run (fun _ => false) [.spawn 1 ⟨50, 9, [⟨20⟩], 8192⟩ "en-US", .adm 0,
        .adm 0, .adm 0, .adm 0, .adm 0]).db
      (run (fun _ => false) [.spawn 1 ⟨50, 9, [⟨20⟩], 8192⟩ "en-US", .adm 0, .adm 0,
        .adm 0, .adm 0, .adm 0]).queue_size
      ⟨2, false, ⟨200, 9, [⟨10⟩], 8192⟩, "en-US", .checkCache⟩ =
      (⟨2, false, ⟨200, 9, [⟨10⟩], 8192⟩, "en-US",
        .insertJob (.queuedPosition 2)⟩,
       (run (fun _ => false) [.spawn 1 ⟨50, 9, [⟨20⟩], 8192⟩ "en-US", .adm 0, .adm 0,
         .adm 0, .adm 0, .adm 0]).db,
       (run (fun _ => false) [.spawn 1 ⟨50, 9, [⟨20⟩], 8192⟩ "en-US", .adm 0, .adm 0,
         .adm 0, .adm 0, .adm 0]).queue_size) :=
  (claim_C7 (fun _ => false) [.spawn 1 ⟨50, 9, [⟨20⟩], 8192⟩ "en-US", .adm 0, .adm 0,
      .adm 0, .adm 0, .adm 0] ⟨2, false, ⟨200, 9, [⟨10⟩], 8192⟩, "en-US", .checkCache⟩
    (by decide) (by decide) rfl (by decide)).2.1 (by decide)

end DiscordTranscribe
